import Mathlib

/-!
Verification of the on-disk postings subsystem of the `meta` text-indexing
toolkit, as described by its specification, against a shallow embedding of
the C++ sources.

Embedding conventions:
* `SecondaryKey` values are modelled as `ℕ` (the C++ code stores them in
  `uint64_t`; theorems carry explicit `< 2 ^ 64` bounds where the width
  matters).
* `double` weights are modelled as `ℚ` for the in-memory record operations
  (`count`, `set_counts`, `merge_with`), where only exact comparison and
  addition of weights occur, and as their raw 64-bit payload (`ℕ`) for the
  serialization layer, which bit-casts every weight to `uint64_t` before
  writing (`postings_data.tcc`, `write_compressed` / `read_compressed`).
* Fallible operations (out-of-bounds vector access, reads past the end of a
  buffer) return `Option`.
* Components of the repository that are not part of the provided sources
  (the byte codec, the delimiter constant, the postings file writer and the
  postings stream decoder) are modelled from the specification; each such
  definition carries a doc comment starting with `Modelled from the spec:`.
-/

namespace MetaIndex

/-- The secondary keys of a pair list, in order (`p.first` projections). -/
def keysOf {W : Type} (l : List (ℕ × W)) : List ℕ :=
  l.map Prod.fst

/-- Comparator used throughout `postings_data.tcc`: `a.first < b.first`. -/
def keyLT {W : Type} (a b : ℕ × W) : Prop :=
  a.1 < b.1

/-- Non-strict companion of `keyLT`; `List.insertionSort` over it models the
result of `std::sort` with the strict comparator `a.first < b.first`. -/
def keyLE {W : Type} (a b : ℕ × W) : Prop :=
  a.1 ≤ b.1

instance {W : Type} : DecidableRel (keyLT (W := W)) :=
  fun a b => Nat.decLt a.1 b.1

instance {W : Type} : DecidableRel (keyLE (W := W)) :=
  fun a b => Nat.decLe a.1 b.1

instance {W : Type} : IsTotal (ℕ × W) keyLE :=
  ⟨fun a b => Nat.le_total a.1 b.1⟩

instance {W : Type} : IsTrans (ℕ × W) keyLE :=
  ⟨fun _ _ _ h h' => Nat.le_trans h h'⟩

instance {W : Type} : IsTrans (ℕ × W) keyLT :=
  ⟨fun _ _ _ h h' => Nat.lt_trans h h'⟩

/-- Sorting a pair list by secondary key; models
`std::sort(_counts.begin(), _counts.end(), [](a, b) { return a.first < b.first; })`.
For inputs with distinct keys the result is the unique key-sorted
permutation, which is exactly what `std::sort` produces; for duplicate keys
`std::sort` leaves the relative order of equal keys unspecified and the
stable insertion sort is one admissible outcome. -/
def sortByKey {W : Type} (l : List (ℕ × W)) : List (ℕ × W) :=
  List.insertionSort keyLE l

/-- Total weight associated with key `k` in a pair list (0 when absent;
the single stored weight when keys are distinct). -/
def wsum (l : List (ℕ × ℚ)) (k : ℕ) : ℚ :=
  ((l.filter (fun p => p.1 = k)).map Prod.snd).sum

/-- In-memory postings record (`postings_data<PrimaryKey, SecondaryKey>`):
a primary key and a list of (secondary key, weight) pairs.  `W` is `ℚ` for
the in-memory view of `double` weights and `ℕ` for their serialized 64-bit
payloads. -/
structure postings_data (W : Type) where
  p_id : ℕ
  counts : List (ℕ × W)
deriving DecidableEq, Repr

/-- `postings_data::set_counts`: replace the contents and re-sort by
secondary key.  The source sorts but performs no deduplication. -/
def set_counts {W : Type} (r : postings_data W) (l : List (ℕ × W)) :
    postings_data W :=
  { r with counts := sortByKey l }

/-- Suffix of `l` starting at `std::lower_bound(l.begin(), l.end(), k, p.first < k)`:
for a key-sorted list, drops exactly the pairs with key `< k`. -/
def lowerBound {W : Type} (l : List (ℕ × W)) (k : ℕ) : List (ℕ × W) :=
  l.dropWhile (fun p => p.1 < k)

/-- Index form of `lowerBound`: `std::distance(l.begin(), it)`. -/
def lbIdx {W : Type} (l : List (ℕ × W)) (k : ℕ) : ℕ :=
  (l.takeWhile (fun p => p.1 < k)).length

/-- `postings_data::count` on the underlying list: binary-search for `s_id`;
return 0 when the iterator is at the end or the key differs, else the stored
weight. -/
def countList (l : List (ℕ × ℚ)) (k : ℕ) : ℚ :=
  match lowerBound l k with
  | [] => 0
  | p :: _ => if p.1 = k then p.2 else 0

/-- `postings_data::count`. -/
def count (r : postings_data ℚ) (k : ℕ) : ℚ :=
  countList r.counts k

/-- One iteration of the loop in `postings_data::merge_with`: `origLen` is
the length of the receiver's original pair vector, `cs` the current (grown)
vector, `p` the pair from `other` being merged.  `std::lower_bound` runs
over the first `origLen` elements only, but the end-of-vector test
`it == _counts.end()` is against the current end. -/
def mergeStep (origLen : ℕ) (cs : List (ℕ × ℚ)) (p : ℕ × ℚ) :
    List (ℕ × ℚ) :=
  match (cs.drop (lbIdx (cs.take origLen) p.1)).head? with
  | none => cs ++ [p]
  | some q =>
    if q.1 ≠ p.1 then cs ++ [p]
    else cs.set (lbIdx (cs.take origLen) p.1) (q.1, q.2 + p.2)

/-- `postings_data::merge_with`: fold the loop over `other`'s pairs, then
re-sort the grown vector by secondary key. -/
def merge_with (r other : postings_data ℚ) : postings_data ℚ :=
  { r with
    counts := sortByKey (other.counts.foldl (mergeStep r.counts.length)
      r.counts) }

/-- The call `self.merge_with(other)` viewed as a transformer of the pair of
records it can touch.  `other` is taken by `const &` and only read (the
`std::move` in the loop acts on a `const` element, hence copies), and the
method body never assigns `_p_id`; the embedding therefore returns `other`
unchanged and `self` with only `_counts` replaced. -/
def merge_with_call (r other : postings_data ℚ) :
    postings_data ℚ × postings_data ℚ :=
  (merge_with r other, other)

/-- Modelled from the spec: the variable-width unsigned integer encoder of
`io::compressed_file_writer` (§4.A), which is not among the provided
sources: low-order 7 bits per byte, continuation bit set on all but the
last byte.  The fuel argument bounds the output at the spec's 10-byte
maximum, enough for any `uint64_t`. -/
def varintFuel : ℕ → ℕ → List ℕ
  | 0, _ => []
  | f + 1, n => if n < 128 then [n] else (n % 128 + 128) :: varintFuel f (n / 128)

/-- Byte encoding of one unsigned value (`write_uint`). -/
def varint (n : ℕ) : List ℕ :=
  varintFuel 10 n

/-- Modelled from the spec: the decoder of `io::compressed_file_reader`
(§4.A): read bytes until one with the high bit clear, assembling 7 bits per
byte low-first; `none` models `CodecError::Truncated` at end of buffer. -/
def readUint : List ℕ → Option (ℕ × List ℕ)
  | [] => none
  | b :: bs =>
    if b < 128 then some (b, bs)
    else
      match readUint bs with
      | none => none
      | some (v, rest) => some (b % 128 + 128 * v, rest)

/-- Modelled from the spec: the delimiter sentinel `_delimiter` declared in
`postings_data.h` (not among the provided sources).  §4.A requires a value
that cannot occur as valid record data; secondary keys are dense
identifiers in `[0, N)` for a `uint64_t` count `N ≤ 2^64 - 1` (§3), so the
all-ones 64-bit value can collide with neither an absolute key nor a gap. -/
def delimiterSentinel : ℕ :=
  2 ^ 64 - 1

/-- Tail of `postings_data::write_compressed` after the first pair: for each
subsequent pair emit the gap `counts[i].first - cur_id` (computed in
`uint64_t`, hence modulo `2^64`) followed by the weight's 64-bit payload,
and after the loop emit the delimiter. -/
def writeGaps (prev : ℕ) : List (ℕ × ℕ) → List ℕ
  | [] => varint delimiterSentinel
  | (k, w) :: ps => varint ((2 ^ 64 + k - prev) % 2 ^ 64) ++ varint w ++ writeGaps k ps

/-- `postings_data::write_compressed` on the pair list, weights as 64-bit
payloads (the source bit-casts each `double` weight to `uint64_t` and
writes it through the same integer path).  The source reads
`mutable_counts[0]` unconditionally, an out-of-bounds access when the
record is empty; the embedding models that access as failure (`none`). -/
def write_compressed : List (ℕ × ℕ) → Option (List ℕ)
  | [] => none
  | (k0, w0) :: ps => some (varint k0 ++ varint w0 ++ writeGaps k0 ps)

/-- Record-level serialization (`write_compressed` writes only the counts;
the primary key is carried outside the record body). -/
def write_record (r : postings_data ℕ) : Option (List ℕ) :=
  write_compressed r.counts

/-- Loop of `postings_data::read_compressed`: read an id; stop at the
delimiter; otherwise read the weight payload, add the gap onto the running
absolute key `last_id` and continue.  Fuel bounds the iteration count by
the buffer length (each iteration consumes at least one byte); running out
of either bytes or fuel models a truncated record (`CodecError`). -/
def readLoop : ℕ → ℕ → List ℕ → Option (List (ℕ × ℕ) × List ℕ)
  | 0, _, _ => none
  | f + 1, last, bytes =>
    match readUint bytes with
    | none => none
    | some (id, rest) =>
      if id = delimiterSentinel then some ([], rest)
      else
        match readUint rest with
        | none => none
        | some (w, rest2) =>
          match readLoop f (last + id) rest2 with
          | none => none
          | some (ps, rest3) => some ((last + id, w) :: ps, rest3)

/-- `postings_data::read_compressed` on a byte buffer: decode pairs until
the delimiter, returning the decoded counts and the unconsumed suffix. -/
def read_compressed (bytes : List ℕ) : Option (List (ℕ × ℕ) × List ℕ) :=
  readLoop (bytes.length + 1) 0 bytes

/-- Deserializing into a record freshly constructed with primary key `p`
(as the read paths do): `read_compressed` fills only `_counts` and never
touches `_p_id`. -/
def read_record (p : ℕ) (bytes : List ℕ) : Option (postings_data ℕ) :=
  (read_compressed bytes).map fun x => ⟨p, x.1⟩

/-- Serialize a record, then deserialize the bytes into a record with the
same primary key. -/
def round_trip (r : postings_data ℕ) : Option (postings_data ℕ) :=
  (write_record r).bind (read_record r.p_id)

/-- `postings_file<PrimaryKey, SecondaryKey>`: the memory-mapped postings
blob and the sibling offset table (`<stem>_index`, `byte_locations_`). -/
structure postings_file where
  byte_locations : List ℕ
  postings : List ℕ
deriving DecidableEq, Repr

/-- Modelled from the spec: `postings_stream` (§4.E), whose header is not
among the provided sources.  Construction records the starting byte offset
and reads lazily, so the stream object is just that offset. -/
structure postings_stream where
  pos : ℕ
deriving DecidableEq, Repr

/-- `postings_file::num_keys`: the offset table length. -/
def num_keys (f : postings_file) : ℕ :=
  f.byte_locations.length

/-- `postings_file::find_stream`: `Some` stream at the recorded offset when
`pk < byte_locations_.size()`, else `None`.  No byte of the postings blob
is touched. -/
def find_stream (f : postings_file) (pk : ℕ) : Option postings_stream :=
  if h : pk < f.byte_locations.length then some ⟨f.byte_locations.get ⟨pk, h⟩⟩
  else none

/-- Modelled from the spec: the body of one stream advance (§4.E) reading
`n` gap-encoded pairs after the length prefix; `none` models a truncated
record surfacing as `CorruptError`. -/
def readPairs : ℕ → ℕ → List ℕ → Option (List (ℕ × ℕ))
  | 0, _, _ => some []
  | n + 1, last, bytes =>
    match readUint bytes with
    | none => none
    | some (gap, rest) =>
      match readUint rest with
      | none => none
      | some (w, rest2) =>
        match readPairs n (last + gap) rest2 with
        | none => none
        | some ps => some ((last + gap, w) :: ps)

/-- Modelled from the spec: materializing a whole stream (§4.E): decode the
length prefix `n` at the stream's offset, then `n` pairs. -/
def stream_collect (f : postings_file) (s : postings_stream) :
    Option (List (ℕ × ℕ)) :=
  match readUint (f.postings.drop s.pos) with
  | none => none
  | some (n, rest) => readPairs n 0 rest

/-- `postings_file::find`: construct a record with primary key `pk`; if
`pk` is in bounds of the offset table, materialize the stream into its
counts; otherwise return the empty record unchanged (no error). -/
def find (f : postings_file) (pk : ℕ) : Option (postings_data ℕ) :=
  if pk < f.byte_locations.length then
    (find_stream f pk).bind fun s =>
      (stream_collect f s).map fun cs => ⟨pk, sortByKey cs⟩
  else some ⟨pk, []⟩

/-- Empty placeholder record for a primary key
(`forward_index::postings_data_type pd{d_id}`). -/
def emptyRecord (pk : ℕ) : postings_data ℚ :=
  ⟨pk, []⟩

/-- The sequence of records written by the loop of
`forward_index::impl::compress`: for each input record, first write empty
placeholder records for every primary key strictly between the previous
record's key (`last_id`, initially 0) and the current key, then the record
itself. -/
def compressWrites : ℕ → List (postings_data ℚ) → List (postings_data ℚ)
  | _, [] => []
  | last, r :: rs =>
    (List.range' (last + 1) (r.p_id - (last + 1))).map emptyRecord
      ++ r :: compressWrites r.p_id rs

/-- The record a written sequence associates with primary key `pk` (first
write wins; under the compress pass each key is written at most once). -/
def writerLookup (writes : List (postings_data ℚ)) (pk : ℕ) :
    Option (postings_data ℚ) :=
  writes.find? fun r => r.p_id = pk

/-- Modelled from the spec: the offset table produced by
`postings_file_writer` (§4.C), which is not among the provided sources.
The writer is constructed knowing the number of primary keys `N`; primary
keys never explicitly written receive an empty placeholder record, so
every key below `N` resolves. -/
def finalTable (writes : List (postings_data ℚ)) (numDocs pk : ℕ) :
    Option (postings_data ℚ) :=
  if pk < numDocs then some ((writerLookup writes pk).getD (emptyRecord pk))
  else none

/-- Adding `δ` onto the weight of the (unique) entry with key `k`; the
effect of the `it->second += p.second` branch of `merge_with` on a
key-sorted vector. -/
def addW (l : List (ℕ × ℚ)) (k : ℕ) (δ : ℚ) : List (ℕ × ℚ) :=
  l.map fun q => if q.1 = k then (q.1, q.2 + δ) else q

/-- Union-with-sum of two pair lists before the final sort: every receiver
entry absorbs the matching weight from `o` (zero when unmatched), and the
`o` pairs with fresh keys are appended. -/
def mergedRaw (s o : List (ℕ × ℚ)) : List (ℕ × ℚ) :=
  (s.map fun q => (q.1, q.2 + wsum o q.1))
    ++ o.filter fun p => ¬ p.1 ∈ keysOf s

/-- Little-endian 8-byte encoding of a 64-bit value, used by the spec's
description of weight serialization ("raw 8 bytes little-endian", §4.A). -/
def bytes8 (n : ℕ) : List ℕ :=
  (List.range 8).map fun i => n / 256 ^ i % 256

/-- IEEE-754 binary64 bit pattern of 1.0 (`0x3FF0000000000000`). -/
def bitsOfOne : ℕ :=
  4607182418800017408

/-- IEEE-754 binary64 bit pattern of 2.0 (`0x4000000000000000`). -/
def bitsOfTwo : ℕ :=
  4611686018427387904

/-- IEEE-754 binary64 bit pattern of 3.0 (`0x4008000000000000`). -/
def bitsOfThree : ℕ :=
  4613937818241073152

/-- The record of the spec's gap-encoding scenario: counts
`[(10, 1.0), (12, 2.0), (100, 3.0)]`, weights as 64-bit payloads. -/
def gapExampleCounts : List (ℕ × ℕ) :=
  [(10, bitsOfOne), (12, bitsOfTwo), (100, bitsOfThree)]

/-- The byte stream the SPEC claims for the gap-encoding scenario (§8,
scenario 2): varint 3 (length prefix), varint 10, 8-byte 1.0, varint 2,
8-byte 2.0, varint 88, 8-byte 3.0.  Stated from the spec's words, for
comparison against `write_compressed`, which is embedded from the source. -/
def specClaimedGapBytes : List ℕ :=
  varint 3 ++ varint 10 ++ bytes8 bitsOfOne ++ varint 2 ++ bytes8 bitsOfTwo
    ++ varint 88 ++ bytes8 bitsOfThree

/-- Gap encoding described directly: for each pair after the first, the
difference of its key from the previous key (plain subtraction, meaningful
because keys ascend strictly), then the weight payload, and the delimiter
after the last pair.  `writeGaps` (embedded from the source, which
subtracts in `uint64_t`) coincides with this on ascending keys. -/
def gapStream : ℕ → List (ℕ × ℕ) → List ℕ
  | _, [] => varint delimiterSentinel
  | prev, (k, w) :: ps => varint (k - prev) ++ varint w ++ gapStream k ps

theorem keysOf_nil {W : Type} : keysOf ([] : List (ℕ × W)) = [] :=
  rfl

theorem keysOf_cons {W : Type} (p : ℕ × W) (l : List (ℕ × W)) :
    keysOf (p :: l) = p.1 :: keysOf l :=
  rfl

theorem keysOf_append {W : Type} (l₁ l₂ : List (ℕ × W)) :
    keysOf (l₁ ++ l₂) = keysOf l₁ ++ keysOf l₂ :=
  List.map_append Prod.fst l₁ l₂

theorem pairwise_keyLT_iff {W : Type} {l : List (ℕ × W)} :
    List.Pairwise keyLT l ↔ List.Pairwise (· < ·) (keysOf l) := by
  simp only [keysOf, List.pairwise_map]
  exact Iff.rfl

theorem pairwise_keyLE_iff {W : Type} {l : List (ℕ × W)} :
    List.Pairwise keyLE l ↔ List.Pairwise (· ≤ ·) (keysOf l) := by
  simp only [keysOf, List.pairwise_map]
  exact Iff.rfl

theorem pairwise_keyLT_of_le_nodup {W : Type} {l : List (ℕ × W)}
    (hle : List.Pairwise keyLE l) (hnd : (keysOf l).Nodup) :
    List.Pairwise keyLT l := by
  rw [pairwise_keyLT_iff]
  rw [pairwise_keyLE_iff] at hle
  exact (hle.and hnd).imp fun h => lt_of_le_of_ne h.1 h.2

theorem sortByKey_sorted {W : Type} (l : List (ℕ × W)) :
    List.Pairwise keyLE (sortByKey l) :=
  List.sorted_insertionSort keyLE l

theorem sortByKey_perm {W : Type} (l : List (ℕ × W)) :
    (sortByKey l).Perm l :=
  List.perm_insertionSort keyLE l

theorem keysOf_sortByKey_nodup {W : Type} {l : List (ℕ × W)}
    (h : (keysOf l).Nodup) : (keysOf (sortByKey l)).Nodup :=
  (((sortByKey_perm l).map Prod.fst).nodup_iff).mpr h

theorem sortByKey_strict {W : Type} {l : List (ℕ × W)}
    (h : (keysOf l).Nodup) : List.Pairwise keyLT (sortByKey l) :=
  pairwise_keyLT_of_le_nodup (sortByKey_sorted l) (keysOf_sortByKey_nodup h)

theorem countList_of_not_mem {l : List (ℕ × ℚ)} {k : ℕ}
    (h : k ∉ keysOf l) : countList l k = 0 := by
  unfold countList
  cases hd : lowerBound l k with
  | nil => rfl
  | cons p rest =>
    have hp : p ∈ l := by
      have : p ∈ lowerBound l k := by rw [hd]; exact List.mem_cons_self p rest
      exact List.dropWhile_sublist _ |>.mem this
    have : p.1 ≠ k := fun hk => h (hk ▸ List.mem_map_of_mem Prod.fst hp)
    simp [this]

theorem countList_of_mem {l : List (ℕ × ℚ)} {k : ℕ} {w : ℚ}
    (hsort : List.Pairwise keyLT l) (hmem : (k, w) ∈ l) :
    countList l k = w := by
  induction l with
  | nil => simp at hmem
  | cons p rest ih =>
    rcases List.mem_cons.mp hmem with h | h
    · have hk : p.1 = k := by rw [← h]
      have hw : p.2 = w := by rw [← h]
      have hdw : lowerBound (p :: rest) k = p :: rest := by
        unfold lowerBound
        rw [List.dropWhile_cons_of_neg]
        simp [hk]
      unfold countList
      rw [hdw]
      simp [hk, hw]
    · have hlt : p.1 < k := by
        have := (List.pairwise_cons.mp hsort).1 (k, w) h
        exact this
      have hdw : lowerBound (p :: rest) k = lowerBound rest k := by
        unfold lowerBound
        rw [List.dropWhile_cons_of_pos]
        simp [hlt]
      unfold countList
      rw [hdw]
      exact ih (List.pairwise_cons.mp hsort).2 h

theorem wsum_cons (p : ℕ × ℚ) (l : List (ℕ × ℚ)) (k : ℕ) :
    wsum (p :: l) k = (if p.1 = k then p.2 else 0) + wsum l k := by
  unfold wsum
  rw [List.filter_cons]
  by_cases h : p.1 = k <;> simp [h]

theorem wsum_eq_zero_of_not_mem {l : List (ℕ × ℚ)} {k : ℕ}
    (h : k ∉ keysOf l) : wsum l k = 0 := by
  induction l with
  | nil => rfl
  | cons p t ih =>
    rw [show keysOf (p :: t) = p.1 :: keysOf t from rfl, List.mem_cons] at h
    push_neg at h
    rw [wsum_cons, if_neg (fun e => h.1 e.symm), ih h.2, add_zero]

theorem wsum_append (l₁ l₂ : List (ℕ × ℚ)) (k : ℕ) :
    wsum (l₁ ++ l₂) k = wsum l₁ k + wsum l₂ k := by
  unfold wsum
  rw [List.filter_append, List.map_append, List.sum_append]

theorem wsum_perm {l₁ l₂ : List (ℕ × ℚ)} (h : l₁.Perm l₂) (k : ℕ) :
    wsum l₁ k = wsum l₂ k :=
  ((h.filter _).map Prod.snd).sum_eq

theorem keysOf_addW (l : List (ℕ × ℚ)) (k : ℕ) (δ : ℚ) :
    keysOf (addW l k δ) = keysOf l := by
  unfold keysOf addW
  rw [List.map_map]
  refine List.map_congr_left fun q _ => ?_
  by_cases h : q.1 = k <;> simp [h]

theorem length_addW (l : List (ℕ × ℚ)) (k : ℕ) (δ : ℚ) :
    (addW l k δ).length = l.length :=
  List.length_map l _

theorem lbIdx_cons {W : Type} (p : ℕ × W) (t : List (ℕ × W)) (k : ℕ) :
    lbIdx (p :: t) k = if p.1 < k then lbIdx t k + 1 else 0 := by
  unfold lbIdx
  rw [List.takeWhile_cons]
  by_cases h : p.1 < k <;> simp [h, Nat.add_comm]

theorem lbIdx_le_length {W : Type} (l : List (ℕ × W)) (k : ℕ) :
    lbIdx l k ≤ l.length :=
  (List.takeWhile_sublist _).length_le

theorem lbIdx_spec {l : List (ℕ × ℚ)} {k : ℕ}
    (hs : List.Pairwise keyLT l) (hm : k ∈ keysOf l) :
    ∃ w rest, l.drop (lbIdx l k) = (k, w) :: rest ∧
      ∀ δ, l.set (lbIdx l k) (k, w + δ) = addW l k δ := by
  induction l with
  | nil => simp [keysOf] at hm
  | cons p t ih =>
    have hcons := List.pairwise_cons.mp hs
    rw [show keysOf (p :: t) = p.1 :: keysOf t from rfl, List.mem_cons] at hm
    rcases hm with hk | hk
    · have hnlt : ¬ p.1 < k := by omega
      refine ⟨p.2, t, ?_, fun δ => ?_⟩
      · rw [lbIdx_cons, if_neg hnlt, List.drop_zero]
        rw [show ((k, p.2) : ℕ × ℚ) = p by rw [hk]]
      · rw [lbIdx_cons, if_neg hnlt]
        unfold addW
        rw [List.set_cons_zero, List.map_cons, if_pos hk.symm]
        have ht : t.map (fun q => if q.1 = k then (q.1, q.2 + δ) else q) = t := by
          refine (List.map_congr_left fun q hq => ?_).trans (List.map_id t)
          have : p.1 < q.1 := hcons.1 q hq
          rw [if_neg (by omega)]
          rfl
        rw [ht, hk]
    · have hlt : p.1 < k := by
        obtain ⟨q, hq, hqk⟩ := List.mem_map.mp hk
        exact hqk ▸ hcons.1 q hq
      obtain ⟨w, rest, hdrop, hset⟩ := ih hcons.2 hk
      refine ⟨w, rest, ?_, fun δ => ?_⟩
      · rw [lbIdx_cons, if_pos hlt, List.drop_succ_cons, hdrop]
      · rw [lbIdx_cons, if_pos hlt, List.set_cons_succ]
        unfold addW
        rw [List.map_cons, if_neg (by omega)]
        rw [show t.set (lbIdx t k) (k, w + δ)
            = t.map fun q => if q.1 = k then (q.1, q.2 + δ) else q from hset δ]

theorem drop_append_le {α : Type} {l₁ l₂ : List α} {n : ℕ}
    (h : n ≤ l₁.length) : (l₁ ++ l₂).drop n = l₁.drop n ++ l₂ := by
  induction l₁ generalizing n with
  | nil =>
    have : n = 0 := Nat.le_zero.mp h
    subst this
    simp
  | cons a t ih =>
    cases n with
    | zero => simp
    | succ m => simpa using ih (Nat.le_of_succ_le_succ h)

theorem mergeStep_of_mem {upd app : List (ℕ × ℚ)} {p : ℕ × ℚ}
    (hs : List.Pairwise keyLT upd) (hm : p.1 ∈ keysOf upd) :
    mergeStep upd.length (upd ++ app) p = addW upd p.1 p.2 ++ app := by
  obtain ⟨w, rest, hdrop, hset⟩ := lbIdx_spec hs hm
  have hlen : lbIdx upd p.1 < upd.length := by
    rcases Nat.lt_or_ge (lbIdx upd p.1) upd.length with h | h
    · exact h
    · rw [List.drop_eq_nil_of_le h] at hdrop
      simp at hdrop
  have hdropapp : (upd ++ app).drop (lbIdx upd p.1)
      = (p.1, w) :: (rest ++ app) := by
    rw [drop_append_le (Nat.le_of_lt hlen), hdrop, List.cons_append]
  unfold mergeStep
  rw [List.take_left, hdropapp, List.head?_cons]
  dsimp only
  rw [if_neg (not_not_intro rfl), List.set_append_left _ _ hlen, hset p.2]

theorem mergeStep_of_not_mem {upd app : List (ℕ × ℚ)} {p : ℕ × ℚ}
    (hm : p.1 ∉ keysOf upd) (happ : ∀ q ∈ app, q.1 ≠ p.1) :
    mergeStep upd.length (upd ++ app) p = (upd ++ app) ++ [p] := by
  unfold mergeStep
  rw [List.take_left]
  cases hh : ((upd ++ app).drop (lbIdx upd p.1)).head? with
  | none => rfl
  | some q =>
    have hq : q ∈ upd ++ app :=
      (List.drop_sublist _ _).mem (List.mem_of_mem_head? (by rw [hh]; rfl))
    have hqk : q.1 ≠ p.1 := by
      rcases List.mem_append.mp hq with h | h
      · exact fun e => hm (e ▸ List.mem_map_of_mem Prod.fst h)
      · exact happ q h
    dsimp only
    rw [if_pos hqk]

theorem foldl_mergeStep (o : List (ℕ × ℚ)) :
    ∀ (upd app : List (ℕ × ℚ)),
      List.Pairwise keyLT upd → List.Pairwise keyLT o →
      (∀ p ∈ o, ∀ q ∈ app, q.1 < p.1) →
      o.foldl (mergeStep upd.length) (upd ++ app)
        = ((upd.map fun q => (q.1, q.2 + wsum o q.1)) ++ app)
          ++ o.filter fun p => ¬ p.1 ∈ keysOf upd := by
  induction o with
  | nil =>
    intro upd app _ _ _
    have hmap : (upd.map fun q => (q.1, q.2 + wsum [] q.1)) = upd := by
      refine (List.map_congr_left fun q _ => ?_).trans (List.map_id upd)
      show (q.1, q.2 + 0) = id q
      rw [add_zero]
      rfl
    rw [List.foldl_nil, List.filter_nil, List.append_nil, hmap]
  | cons p o' ih =>
    intro upd app hupd ho happ
    have hpcons := List.pairwise_cons.mp ho
    rw [List.foldl_cons]
    by_cases hmem : p.1 ∈ keysOf upd
    · rw [mergeStep_of_mem hupd hmem]
      have hupd' : List.Pairwise keyLT (addW upd p.1 p.2) := by
        rw [pairwise_keyLT_iff, keysOf_addW]
        exact pairwise_keyLT_iff.mp hupd
      have hlen : upd.length = (addW upd p.1 p.2).length :=
        (length_addW upd p.1 p.2).symm
      rw [hlen, ih (addW upd p.1 p.2) app hupd' hpcons.2
        (fun r hr q hq => happ r (List.mem_cons_of_mem p hr) q hq)]
      rw [keysOf_addW]
      have hfcons : ((p :: o').filter fun r => ¬ r.1 ∈ keysOf upd)
          = o'.filter fun r => ¬ r.1 ∈ keysOf upd := by
        rw [List.filter_cons]
        simp [hmem]
      rw [hfcons]
      congr 2
      rw [addW, List.map_map]
      refine List.map_congr_left fun q hq => ?_
      by_cases hqk : q.1 = p.1
      · simp only [Function.comp, if_pos hqk]
        rw [wsum_cons, if_pos hqk.symm, add_assoc]
      · simp only [Function.comp, if_neg hqk]
        rw [wsum_cons, if_neg fun e => hqk e.symm, zero_add]
    · have happk : ∀ q ∈ app, q.1 ≠ p.1 :=
        fun q hq => Nat.ne_of_lt (happ p (List.mem_cons_self p o') q hq)
      rw [mergeStep_of_not_mem hmem happk, List.append_assoc]
      have happ' : ∀ r ∈ o', ∀ q ∈ app ++ [p], q.1 < r.1 := by
        intro r hr q hq
        rcases List.mem_append.mp hq with h | h
        · exact happ r (List.mem_cons_of_mem p hr) q h
        · rw [List.mem_singleton.mp h]
          exact hpcons.1 r hr
      rw [ih upd (app ++ [p]) hupd hpcons.2 happ']
      have hfcons : ((p :: o').filter fun r => ¬ r.1 ∈ keysOf upd)
          = p :: o'.filter fun r => ¬ r.1 ∈ keysOf upd := by
        rw [List.filter_cons]
        simp [hmem]
      rw [hfcons]
      have hmap : (upd.map fun q => (q.1, q.2 + wsum (p :: o') q.1))
          = upd.map fun q => (q.1, q.2 + wsum o' q.1) := by
        refine List.map_congr_left fun q hq => ?_
        have hqk : ¬ p.1 = q.1 :=
          fun e => hmem (e ▸ List.mem_map_of_mem Prod.fst hq)
        rw [wsum_cons, if_neg hqk, zero_add]
      rw [hmap]
      simp [List.append_assoc]

theorem keys_nodup_of_pairwise {W : Type} {l : List (ℕ × W)}
    (h : List.Pairwise keyLT l) : (keysOf l).Nodup :=
  (pairwise_keyLT_iff.mp h).imp Nat.ne_of_lt

theorem head_not_mem_keys {W : Type} {p : ℕ × W} {t : List (ℕ × W)}
    (h : List.Pairwise keyLT (p :: t)) : p.1 ∉ keysOf t := by
  intro hm
  obtain ⟨q, hq, hqk⟩ := List.mem_map.mp hm
  have hlt : p.1 < q.1 := (List.pairwise_cons.mp h).1 q hq
  rw [hqk] at hlt
  exact lt_irrefl p.1 hlt

theorem merge_with_counts_eq {s o : postings_data ℚ}
    (hs : List.Pairwise keyLT s.counts) (ho : List.Pairwise keyLT o.counts) :
    (merge_with s o).counts = sortByKey (mergedRaw s.counts o.counts) := by
  have h := foldl_mergeStep o.counts s.counts [] hs ho
    (fun p _ q hq => absurd hq (List.not_mem_nil q))
  simp only [List.append_nil] at h
  unfold merge_with mergedRaw
  dsimp only
  rw [h]

theorem keysOf_map_add (s : List (ℕ × ℚ)) (g : ℕ → ℚ) :
    keysOf (s.map fun q => (q.1, q.2 + g q.1)) = keysOf s := by
  unfold keysOf
  rw [List.map_map]
  exact List.map_congr_left fun q _ => rfl

theorem mem_keys_filter {o : List (ℕ × ℚ)} {K : List ℕ} {k : ℕ} :
    k ∈ keysOf (o.filter fun p => ¬ p.1 ∈ K) ↔ k ∈ keysOf o ∧ k ∉ K := by
  constructor
  · intro h
    obtain ⟨q, hq, hqk⟩ := List.mem_map.mp h
    have hmem := List.mem_of_mem_filter hq
    have hpred := List.of_mem_filter hq
    refine ⟨hqk ▸ List.mem_map_of_mem Prod.fst hmem, ?_⟩
    rw [← hqk]
    exact of_decide_eq_true hpred
  · rintro ⟨h1, h2⟩
    obtain ⟨q, hq, hqk⟩ := List.mem_map.mp h1
    refine hqk ▸ List.mem_map_of_mem Prod.fst (List.mem_filter.mpr ⟨hq, ?_⟩)
    exact decide_eq_true (hqk ▸ h2 : ¬ q.1 ∈ K)

theorem keysOf_mergedRaw {s o : List (ℕ × ℚ)} :
    keysOf (mergedRaw s o)
      = keysOf s ++ keysOf (o.filter fun p => ¬ p.1 ∈ keysOf s) := by
  unfold mergedRaw
  rw [keysOf_append, keysOf_map_add]

theorem keysOf_mergedRaw_nodup {s o : List (ℕ × ℚ)}
    (hs : List.Pairwise keyLT s) (ho : List.Pairwise keyLT o) :
    (keysOf (mergedRaw s o)).Nodup := by
  rw [keysOf_mergedRaw, List.nodup_append]
  refine ⟨keys_nodup_of_pairwise hs, ?_, ?_⟩
  · exact ((List.filter_sublist o).map Prod.fst).nodup
      (keys_nodup_of_pairwise ho)
  · intro k hk1 hk2
    exact (mem_keys_filter.mp hk2).2 hk1

theorem mem_keysOf_mergedRaw (s o : List (ℕ × ℚ)) (k : ℕ) :
    k ∈ keysOf (mergedRaw s o) ↔ k ∈ keysOf s ∨ k ∈ keysOf o := by
  rw [keysOf_mergedRaw, List.mem_append, mem_keys_filter]
  by_cases hk : k ∈ keysOf s
  · simp [hk]
  · simp [hk]

theorem wsum_map_add {s : List (ℕ × ℚ)} (hnd : (keysOf s).Nodup)
    (g : ℕ → ℚ) (k : ℕ) :
    wsum (s.map fun q => (q.1, q.2 + g q.1)) k
      = wsum s k + (if k ∈ keysOf s then g k else 0) := by
  induction s with
  | nil => simp [wsum, keysOf]
  | cons p t ih =>
    rw [keysOf_cons, List.nodup_cons] at hnd
    rw [List.map_cons, wsum_cons, wsum_cons, keysOf_cons]
    dsimp only
    by_cases hpk : p.1 = k
    · have hkt : k ∉ keysOf t := hpk ▸ hnd.1
      rw [if_pos hpk, if_pos hpk, ih hnd.2, wsum_eq_zero_of_not_mem hkt,
        if_neg hkt, if_pos (List.mem_cons.mpr (Or.inl hpk.symm)), hpk]
      ring
    · have hiff : (k ∈ p.1 :: keysOf t) ↔ k ∈ keysOf t :=
        List.mem_cons.trans (or_iff_right fun e => hpk e.symm)
      rw [if_neg hpk, if_neg hpk, ih hnd.2, if_congr hiff rfl rfl]
      ring

theorem wsum_filter_keys (o : List (ℕ × ℚ)) (K : List ℕ) (k : ℕ) :
    wsum (o.filter fun p => ¬ p.1 ∈ K) k
      = if k ∈ K then 0 else wsum o k := by
  induction o with
  | nil => simp [wsum]
  | cons p t ih =>
    rw [List.filter_cons]
    by_cases hp : p.1 ∈ K
    · rw [if_neg (by simpa using hp), ih]
      by_cases hk : k ∈ K
      · rw [if_pos hk, if_pos hk]
      · rw [if_neg hk, if_neg hk, wsum_cons,
          if_neg (fun e : p.1 = k => hk (e ▸ hp)), zero_add]
    · rw [if_pos (by simpa using hp), wsum_cons, ih, wsum_cons]
      by_cases hk : k ∈ K
      · rw [if_pos hk, if_pos hk,
          if_neg (fun e : p.1 = k => hp (e.symm ▸ hk)), zero_add]
      · rw [if_neg hk, if_neg hk]

theorem wsum_mergedRaw {s o : List (ℕ × ℚ)} (hnd : (keysOf s).Nodup)
    (k : ℕ) : wsum (mergedRaw s o) k = wsum s k + wsum o k := by
  unfold mergedRaw
  rw [wsum_append, wsum_map_add hnd (fun j => wsum o j) k,
    wsum_filter_keys o (keysOf s) k]
  by_cases hk : k ∈ keysOf s
  · rw [if_pos hk, if_pos hk, add_zero]
  · rw [if_neg hk, if_neg hk, add_zero]

theorem eq_of_sorted_keys_wsum : ∀ {l₁ l₂ : List (ℕ × ℚ)},
    List.Pairwise keyLT l₁ → List.Pairwise keyLT l₂ →
    (∀ k, k ∈ keysOf l₁ ↔ k ∈ keysOf l₂) →
    (∀ k, wsum l₁ k = wsum l₂ k) → l₁ = l₂ := by
  intro l₁
  induction l₁ with
  | nil =>
    intro l₂ _ _ hkeys _
    cases l₂ with
    | nil => rfl
    | cons q u =>
      exact absurd ((hkeys q.1).mpr (List.mem_cons_self q.1 (keysOf u)))
        (List.not_mem_nil q.1)
  | cons p t ih =>
    intro l₂ h₁ h₂ hkeys hw
    cases l₂ with
    | nil =>
      exact absurd ((hkeys p.1).mp (List.mem_cons_self p.1 (keysOf t)))
        (List.not_mem_nil p.1)
    | cons q u =>
      have hpt : p.1 ∉ keysOf t := head_not_mem_keys h₁
      have hqu : q.1 ∉ keysOf u := head_not_mem_keys h₂
      have hkey : p.1 = q.1 := by
        have hp2 := (hkeys p.1).mp (List.mem_cons_self p.1 (keysOf t))
        have hq1 := (hkeys q.1).mpr (List.mem_cons_self q.1 (keysOf u))
        rcases List.mem_cons.mp hp2 with h | h
        · exact h
        · rcases List.mem_cons.mp hq1 with h' | h'
          · exact h'.symm
          · have hlt1 : q.1 < p.1 := by
              obtain ⟨r, hr, hrk⟩ := List.mem_map.mp h
              exact hrk ▸ (List.pairwise_cons.mp h₂).1 r hr
            have hlt2 : p.1 < q.1 := by
              obtain ⟨r, hr, hrk⟩ := List.mem_map.mp h'
              exact hrk ▸ (List.pairwise_cons.mp h₁).1 r hr
            omega
      have hwt : p.2 = q.2 := by
        have h1 : wsum (p :: t) p.1 = p.2 := by
          rw [wsum_cons, if_pos rfl, wsum_eq_zero_of_not_mem hpt, add_zero]
        have h2 : wsum (q :: u) p.1 = q.2 := by
          rw [wsum_cons, if_pos hkey.symm, hkey,
            wsum_eq_zero_of_not_mem hqu, add_zero]
        rw [← h1, ← h2]
        exact hw p.1
      have hpq : p = q := Prod.ext hkey hwt
      have htail : t = u := by
        refine ih (List.pairwise_cons.mp h₁).2 (List.pairwise_cons.mp h₂).2
          (fun k => ?_) (fun k => ?_)
        · constructor
          · intro hk
            have hne : k ≠ p.1 := fun e => hpt (e ▸ hk)
            have := (hkeys k).mp (List.mem_cons_of_mem p.1 hk)
            rcases List.mem_cons.mp this with h | h
            · exact absurd (h.trans hkey.symm) hne
            · exact h
          · intro hk
            have hne : k ≠ q.1 := fun e => hqu (e ▸ hk)
            have := (hkeys k).mpr (List.mem_cons_of_mem q.1 hk)
            rcases List.mem_cons.mp this with h | h
            · exact absurd (h.trans hkey) hne
            · exact h
        · by_cases hk : k = p.1
          · rw [hk, wsum_eq_zero_of_not_mem hpt,
              wsum_eq_zero_of_not_mem (show p.1 ∉ keysOf u by rw [hkey]; exact hqu)]
          · have h1 : wsum (p :: t) k = wsum t k := by
              rw [wsum_cons, if_neg (fun e => hk e.symm), zero_add]
            have h2 : wsum (q :: u) k = wsum u k := by
              rw [wsum_cons, if_neg (fun e : q.1 = k => hk (e.symm.trans hkey.symm)),
                zero_add]
            rw [← h1, ← h2]
            exact hw k
      rw [hpq, htail]

theorem merge_with_sorted {s o : postings_data ℚ}
    (hs : List.Pairwise keyLT s.counts) (ho : List.Pairwise keyLT o.counts) :
    List.Pairwise keyLT (merge_with s o).counts := by
  rw [merge_with_counts_eq hs ho]
  exact sortByKey_strict (keysOf_mergedRaw_nodup hs ho)

theorem mem_keysOf_merge_with {s o : postings_data ℚ}
    (hs : List.Pairwise keyLT s.counts) (ho : List.Pairwise keyLT o.counts)
    (k : ℕ) :
    k ∈ keysOf (merge_with s o).counts
      ↔ k ∈ keysOf s.counts ∨ k ∈ keysOf o.counts := by
  rw [merge_with_counts_eq hs ho]
  exact (((sortByKey_perm (mergedRaw s.counts o.counts)).map
    Prod.fst).mem_iff).trans (mem_keysOf_mergedRaw s.counts o.counts k)

theorem wsum_merge_with {s o : postings_data ℚ}
    (hs : List.Pairwise keyLT s.counts) (ho : List.Pairwise keyLT o.counts)
    (k : ℕ) :
    wsum (merge_with s o).counts k = wsum s.counts k + wsum o.counts k := by
  rw [merge_with_counts_eq hs ho,
    wsum_perm (sortByKey_perm (mergedRaw s.counts o.counts)) k,
    wsum_mergedRaw (keys_nodup_of_pairwise hs) k]

theorem merge_with_comm_counts {s o : postings_data ℚ}
    (hs : List.Pairwise keyLT s.counts) (ho : List.Pairwise keyLT o.counts) :
    (merge_with s o).counts = (merge_with o s).counts :=
  eq_of_sorted_keys_wsum (merge_with_sorted hs ho) (merge_with_sorted ho hs)
    (fun k => ((mem_keysOf_merge_with hs ho k).trans Or.comm).trans
      (mem_keysOf_merge_with ho hs k).symm)
    (fun k => by
      rw [wsum_merge_with hs ho, wsum_merge_with ho hs, add_comm])

theorem merge_with_assoc_counts {s o t : postings_data ℚ}
    (hs : List.Pairwise keyLT s.counts) (ho : List.Pairwise keyLT o.counts)
    (ht : List.Pairwise keyLT t.counts) :
    (merge_with (merge_with s o) t).counts
      = (merge_with s (merge_with o t)).counts :=
  eq_of_sorted_keys_wsum
    (merge_with_sorted (merge_with_sorted hs ho) ht)
    (merge_with_sorted hs (merge_with_sorted ho ht))
    (fun k => by
      rw [mem_keysOf_merge_with (merge_with_sorted hs ho) ht,
        mem_keysOf_merge_with hs ho,
        mem_keysOf_merge_with hs (merge_with_sorted ho ht),
        mem_keysOf_merge_with ho ht, or_assoc])
    (fun k => by
      rw [wsum_merge_with (merge_with_sorted hs ho) ht,
        wsum_merge_with hs ho,
        wsum_merge_with hs (merge_with_sorted ho ht),
        wsum_merge_with ho ht, add_assoc])

theorem readUint_varintFuel :
    ∀ (f n : ℕ) (rest : List ℕ), n < 2 ^ (7 * (f + 1)) →
      readUint (varintFuel (f + 1) n ++ rest) = some (n, rest) := by
  intro f
  induction f with
  | zero =>
    intro n rest h
    have hn : n < 128 := by norm_num at h; omega
    unfold varintFuel
    rw [if_pos hn, List.cons_append, List.nil_append]
    unfold readUint
    rw [if_pos hn]
  | succ f ih =>
    intro n rest h
    by_cases hn : n < 128
    · unfold varintFuel
      rw [if_pos hn, List.cons_append, List.nil_append]
      unfold readUint
      rw [if_pos hn]
    · unfold varintFuel
      rw [if_neg hn, List.cons_append]
      unfold readUint
      rw [if_neg (by omega : ¬ n % 128 + 128 < 128)]
      have hdiv : n / 128 < 2 ^ (7 * (f + 1)) := by
        rw [Nat.div_lt_iff_lt_mul (by norm_num : 0 < 128)]
        calc n < 2 ^ (7 * (f + 1 + 1)) := h
        _ = 2 ^ (7 * (f + 1)) * 128 := by ring
      rw [ih (n / 128) rest hdiv]
      dsimp only
      have h1 : (n % 128 + 128) % 128 = n % 128 :=
        (Nat.add_mod_right _ _).trans
          (Nat.mod_eq_of_lt (Nat.mod_lt n (by norm_num)))
      rw [h1, Nat.mod_add_div]

theorem readUint_varint {n : ℕ} (rest : List ℕ) (h : n < 2 ^ 70) :
    readUint (varint n ++ rest) = some (n, rest) :=
  readUint_varintFuel 9 n rest (by norm_num; norm_num at h; exact h)

theorem varint_length_pos (n : ℕ) : 1 ≤ (varint n).length := by
  unfold varint varintFuel
  by_cases h : n < 128 <;> simp [h]

theorem writeGaps_length (ps : List (ℕ × ℕ)) :
    ∀ prev, 2 * ps.length + 1 ≤ (writeGaps prev ps).length := by
  induction ps with
  | nil =>
    intro prev
    unfold writeGaps
    simpa using varint_length_pos delimiterSentinel
  | cons p t ih =>
    intro prev
    obtain ⟨k, w⟩ := p
    unfold writeGaps
    rw [List.append_assoc, List.length_append, List.length_append]
    have h1 := varint_length_pos ((2 ^ 64 + k - prev) % 2 ^ 64)
    have h2 := varint_length_pos w
    have h3 := ih k
    simp only [List.length_cons]
    omega

theorem readLoop_writeGaps :
    ∀ (ps : List (ℕ × ℕ)) (prev f : ℕ) (rest : List ℕ),
      ps.length + 1 ≤ f →
      List.Chain' (· < ·) (prev :: keysOf ps) →
      (∀ p ∈ ps, p.1 < 2 ^ 64 - 1) →
      (∀ p ∈ ps, p.2 < 2 ^ 64) →
      readLoop f prev (writeGaps prev ps ++ rest) = some (ps, rest) := by
  intro ps
  induction ps with
  | nil =>
    intro prev f rest hf _ _ _
    obtain ⟨f', rfl⟩ : ∃ f', f = f' + 1 := ⟨f - 1, by omega⟩
    unfold writeGaps readLoop
    rw [readUint_varint rest (by norm_num [delimiterSentinel])]
    dsimp only
    rw [if_pos rfl]
  | cons p t ih =>
    intro prev f rest hf hchain hkb hwb
    obtain ⟨f', rfl⟩ : ∃ f', f = f' + 1 := ⟨f - 1, by omega⟩
    obtain ⟨k, w⟩ := p
    have hchain' : List.Chain' (· < ·) (k :: keysOf t) :=
      (List.chain'_cons.mp hchain).2
    have hprev : prev < k := (List.chain'_cons.mp hchain).1
    have hk64 : k < 2 ^ 64 - 1 := hkb (k, w) (List.mem_cons_self _ t)
    have hw64 : w < 2 ^ 64 := hwb (k, w) (List.mem_cons_self _ t)
    have hgap : (2 ^ 64 + k - prev) % 2 ^ 64 = k - prev := by
      rw [show 2 ^ 64 + k - prev = (k - prev) + 2 ^ 64 by omega,
        Nat.add_mod_right]
      exact Nat.mod_eq_of_lt (by omega)
    unfold writeGaps
    rw [hgap, List.append_assoc, List.append_assoc]
    unfold readLoop
    rw [readUint_varint _ (by omega : k - prev < 2 ^ 70)]
    dsimp only
    rw [if_neg (by norm_num [delimiterSentinel]; omega)]
    rw [readUint_varint _ (by omega : w < 2 ^ 70)]
    dsimp only
    rw [show prev + (k - prev) = k by omega]
    rw [ih k f' rest (by simpa using Nat.le_of_succ_le_succ hf) hchain'
      (fun q hq => hkb q (List.mem_cons_of_mem _ hq))
      (fun q hq => hwb q (List.mem_cons_of_mem _ hq))]

theorem round_trip_eq {r : postings_data ℕ}
    (hne : r.counts ≠ [])
    (hsort : List.Pairwise keyLT r.counts)
    (hkeys : ∀ p ∈ r.counts, p.1 < 2 ^ 64 - 1)
    (hws : ∀ p ∈ r.counts, p.2 < 2 ^ 64) :
    round_trip r = some r := by
  obtain ⟨c0, ps, hc⟩ := List.exists_cons_of_ne_nil hne
  obtain ⟨k0, w0⟩ := c0
  have hk0 : k0 < 2 ^ 64 - 1 := hkeys (k0, w0) (hc ▸ List.mem_cons_self _ ps)
  have hw0 : w0 < 2 ^ 64 := hws (k0, w0) (hc ▸ List.mem_cons_self _ ps)
  have hchain : List.Chain' (· < ·) (k0 :: keysOf ps) := by
    have h1 : List.Pairwise (· < ·) (keysOf r.counts) :=
      pairwise_keyLT_iff.mp hsort
    rw [hc, keysOf_cons] at h1
    exact List.chain'_iff_pairwise.mpr h1
  have hlen : ps.length + 1
      ≤ (varint k0 ++ (varint w0 ++ writeGaps k0 ps)).length := by
    rw [List.length_append, List.length_append]
    have h1 := varint_length_pos k0
    have h2 := varint_length_pos w0
    have h3 := writeGaps_length ps k0
    omega
  have hgaps := readLoop_writeGaps ps k0
    (varint k0 ++ (varint w0 ++ writeGaps k0 ps)).length []
    hlen hchain
    (fun q hq => hkeys q (hc ▸ List.mem_cons_of_mem _ hq))
    (fun q hq => hws q (hc ▸ List.mem_cons_of_mem _ hq))
  rw [List.append_nil] at hgaps
  unfold round_trip write_record read_record read_compressed
  rw [hc]
  rw [show write_compressed ((k0, w0) :: ps)
      = some (varint k0 ++ (varint w0 ++ writeGaps k0 ps)) by
    simp [write_compressed, List.append_assoc]]
  rw [Option.some_bind]
  unfold readLoop
  rw [readUint_varint _ (by omega : k0 < 2 ^ 70)]
  dsimp only
  rw [if_neg (by norm_num [delimiterSentinel]; omega)]
  rw [readUint_varint _ (by omega : w0 < 2 ^ 70)]
  dsimp only
  rw [show (0 : ℕ) + k0 = k0 by omega, hgaps]
  dsimp only
  rw [← hc]
  rfl

theorem compressWrites_mem :
    ∀ (input : List (postings_data ℚ)) (last : ℕ) (r : postings_data ℚ),
      r ∈ compressWrites last input → r ∈ input ∨ r.counts = [] := by
  intro input
  induction input with
  | nil =>
    intro last r h
    simp [compressWrites] at h
  | cons q rest ih =>
    intro last r h
    unfold compressWrites at h
    rcases List.mem_append.mp h with h | h
    · obtain ⟨pk, _, hpk⟩ := List.mem_map.mp h
      exact Or.inr (by rw [← hpk]; rfl)
    · rcases List.mem_cons.mp h with h | h
      · exact Or.inl (h ▸ List.mem_cons_self q rest)
      · rcases ih q.p_id r h with h' | h'
        · exact Or.inl (List.mem_cons_of_mem q h')
        · exact Or.inr h'

theorem find?_append_of_none {α : Type} (p : α → Bool) {l₁ : List α}
    (l₂ : List α) (h : ∀ a ∈ l₁, p a = false) :
    List.find? p (l₁ ++ l₂) = List.find? p l₂ := by
  induction l₁ with
  | nil => rfl
  | cons a t ih =>
    rw [List.cons_append, List.find?_cons, h a (List.mem_cons_self a t)]
    exact ih fun b hb => h b (List.mem_cons_of_mem a hb)

theorem compressWrites_find? :
    ∀ (input : List (postings_data ℚ)) (last : ℕ),
      List.Chain' (· < ·) (input.map postings_data.p_id) →
      (∀ r ∈ input, last ≤ r.p_id) →
      ∀ q ∈ input,
        List.find? (fun x => x.p_id = q.p_id) (compressWrites last input)
          = some q := by
  intro input
  induction input with
  | nil =>
    intro last _ _ q hq
    simp at hq
  | cons r0 rest ih =>
    intro last hchain hle q hq
    have hpair : List.Pairwise (· < ·) ((r0 :: rest).map postings_data.p_id) :=
      List.chain'_iff_pairwise.mp hchain
    rw [List.map_cons, List.pairwise_cons] at hpair
    have hq0 : r0.p_id ≤ q.p_id := by
      rcases List.mem_cons.mp hq with rfl | hq'
      · exact Nat.le_refl _
      · exact Nat.le_of_lt (hpair.1 q.p_id (List.mem_map_of_mem _ hq'))
    unfold compressWrites
    have hgaps : ∀ a ∈ (List.range' (last + 1) (r0.p_id - (last + 1))).map
        emptyRecord, (fun x => decide (x.p_id = q.p_id)) a = false := by
      intro a ha
      obtain ⟨pk, hpk, hae⟩ := List.mem_map.mp ha
      obtain ⟨i, hi, hie⟩ := List.mem_range'.mp hpk
      have hlt : pk < r0.p_id := by omega
      have : a.p_id = pk := by rw [← hae]; rfl
      exact decide_eq_false (by omega)
    rw [find?_append_of_none _ _ hgaps, List.find?_cons]
    rcases List.mem_cons.mp hq with rfl | hq'
    · rw [decide_eq_true rfl]
    · have hne : r0.p_id ≠ q.p_id :=
        Nat.ne_of_lt (hpair.1 q.p_id (List.mem_map_of_mem _ hq'))
      rw [decide_eq_false hne]
      exact ih r0.p_id
        (by
          have := List.chain'_iff_pairwise.mpr hpair.2
          exact this)
        (fun r hr => Nat.le_of_lt (hpair.1 r.p_id (List.mem_map_of_mem _ hr)))
        q hq'

theorem writeGaps_eq_gapStream :
    ∀ (ps : List (ℕ × ℕ)) (prev : ℕ),
      List.Chain' (· < ·) (prev :: keysOf ps) →
      (∀ p ∈ ps, p.1 < 2 ^ 64) →
      writeGaps prev ps = gapStream prev ps := by
  intro ps
  induction ps with
  | nil => intro prev _ _; rfl
  | cons p t ih =>
    intro prev hchain hkb
    obtain ⟨k, w⟩ := p
    have hprev : prev < k := (List.chain'_cons.mp hchain).1
    have hk : k < 2 ^ 64 := hkb (k, w) (List.mem_cons_self _ t)
    unfold writeGaps gapStream
    rw [show (2 ^ 64 + k - prev) % 2 ^ 64 = k - prev by
        rw [show 2 ^ 64 + k - prev = (k - prev) + 2 ^ 64 by omega,
          Nat.add_mod_right]
        exact Nat.mod_eq_of_lt (by omega)]
    rw [ih k (List.chain'_cons.mp hchain).2
      (fun q hq => hkb q (List.mem_cons_of_mem _ hq))]

/-- C1 (counterexample): the claim quantifies over every valid record, and
the empty record is valid (its invariants hold vacuously); but the source's
`write_compressed` reads `counts[0]` unconditionally, which is out of
bounds for an empty record, so serialization produces no byte stream and
the round trip cannot return the record. -/
theorem claim_C1_counterexample :
    round_trip (⟨5, []⟩ : postings_data ℕ) ≠ some ⟨5, []⟩ := by
  decide

/-- C1 (amended): for every valid NONEMPTY postings record - secondary
keys strictly ascending (hence distinct) `uint64_t` identifiers below the
delimiter sentinel `2^64 - 1`, weights arbitrary 64-bit payloads -
deserializing the serialized bytes yields a record equal to the original:
same primary key and the very same pair list. -/
theorem claim_C1_round_trip (r : postings_data ℕ)
    (hne : r.counts ≠ [])
    (hsort : List.Pairwise keyLT r.counts)
    (hkeys : ∀ p ∈ r.counts, p.1 < 2 ^ 64 - 1)
    (hws : ∀ p ∈ r.counts, p.2 < 2 ^ 64) :
    round_trip r = some r :=
  round_trip_eq hne hsort hkeys hws

theorem claim_C1_witness :
    round_trip
      (⟨3, [(10, bitsOfOne), (12, bitsOfTwo), (100, bitsOfThree)]⟩ :
        postings_data ℕ)
      = some ⟨3, [(10, bitsOfOne), (12, bitsOfTwo), (100, bitsOfThree)]⟩ :=
  claim_C1_round_trip _ (by decide) (by decide) (by decide) (by decide)

/-- C2 (counterexample): the source's serialization of the record with
counts [(10, 1.0), (12, 2.0), (100, 3.0)] is not the spec's claimed byte
stream "varint 3, varint 10, 8-byte 1.0, varint 2, 8-byte 2.0, varint 88,
8-byte 3.0": the source emits no length prefix (the very first byte is
varint 10, not varint 3), writes each weight's 64-bit payload through the
varint path rather than as raw 8 bytes, and terminates the record with a
delimiter sentinel. -/
theorem claim_C2_counterexample :
    write_compressed gapExampleCounts ≠ some specClaimedGapBytes := by
  decide

/-- C2 (amended): for every record with n >= 1 pairs and strictly
ascending `uint64_t` keys, serialization emits the first secondary key
absolute with its weight payload, then for each subsequent pair the gap
from the previous secondary key followed by the weight payload, and
finally the delimiter sentinel - there is no length prefix; in particular
the example record serializes as varint 10, varint payload(1.0), varint 2,
varint payload(2.0), varint 88, varint payload(3.0), varint delimiter. -/
theorem claim_C2_serialization (c0 : ℕ × ℕ) (ps : List (ℕ × ℕ))
    (hsort : List.Pairwise keyLT (c0 :: ps))
    (hkeys : ∀ p ∈ c0 :: ps, p.1 < 2 ^ 64) :
    write_compressed (c0 :: ps)
      = some (varint c0.1 ++ varint c0.2 ++ gapStream c0.1 ps)
    ∧ write_compressed gapExampleCounts
      = some (varint 10 ++ varint bitsOfOne ++ varint 2 ++ varint bitsOfTwo
          ++ varint 88 ++ varint bitsOfThree ++ varint delimiterSentinel) := by
  constructor
  · obtain ⟨k0, w0⟩ := c0
    dsimp only
    have hchain : List.Chain' (· < ·) (k0 :: keysOf ps) :=
      List.chain'_iff_pairwise.mpr
        (by
          have h := pairwise_keyLT_iff.mp hsort
          rw [keysOf_cons] at h
          exact h)
    rw [show write_compressed ((k0, w0) :: ps)
        = some (varint k0 ++ varint w0 ++ writeGaps k0 ps) by
      simp [write_compressed]]
    rw [writeGaps_eq_gapStream ps k0 hchain
      (fun q hq => hkeys q (List.mem_cons_of_mem _ hq))]
  · decide

theorem claim_C2_witness :
    write_compressed ((10, bitsOfOne) :: [(12, bitsOfTwo), (100, bitsOfThree)])
      = some (varint 10 ++ varint bitsOfOne
          ++ gapStream 10 [(12, bitsOfTwo), (100, bitsOfThree)]) :=
  (claim_C2_serialization (10, bitsOfOne) [(12, bitsOfTwo), (100, bitsOfThree)]
    (by decide) (by decide)).1

/-- C3: serializing a record with zero pairs is NOT well-defined in the
source: `write_compressed` reads `mutable_counts[0]` unconditionally, an
out-of-bounds access for an empty record, modelled as `none`; no two-byte
varint-0 stream (nor any stream) is produced, although the design requires
empty placeholder records to be serializable. -/
theorem claim_C3_empty_write :
    write_compressed ([] : List (ℕ × ℕ)) = none
    ∧ write_record (⟨0, []⟩ : postings_data ℕ) = none := by
  decide

/-- C4 (counterexample): `set_counts` only sorts and never deduplicates,
so feeding the pairs [(1, 1), (1, 2)] - a repeated secondary key - leaves
two entries with key 1: the counts are not strictly ascending and the keys
are not duplicate-free, violating invariants 1 and 2 as the claim states
them for arbitrary inputs. -/
theorem claim_C4_counterexample :
    ¬ (List.Pairwise keyLT
        (set_counts (⟨0, []⟩ : postings_data ℚ) [(1, 1), (1, 2)]).counts
      ∧ (keysOf
          (set_counts (⟨0, []⟩ : postings_data ℚ) [(1, 1), (1, 2)]).counts).Nodup) := by
  decide

/-- C4 (amended): for every input sequence, `set_counts` leaves the
record's counts a permutation of the input sorted (non-strictly) ascending
by secondary key, and the primary key unchanged; when the input's
secondary keys are distinct the result is strictly ascending with no
duplicate key.  (The implementation sorts but does not deduplicate, so
repeated input keys survive.) -/
theorem claim_C4_set_counts (r : postings_data ℚ) (l : List (ℕ × ℚ)) :
    List.Pairwise keyLE (set_counts r l).counts
    ∧ (set_counts r l).counts.Perm l
    ∧ ((keysOf l).Nodup → List.Pairwise keyLT (set_counts r l).counts
        ∧ (keysOf (set_counts r l).counts).Nodup)
    ∧ (set_counts r l).p_id = r.p_id :=
  ⟨sortByKey_sorted l, sortByKey_perm l,
    fun h => ⟨sortByKey_strict h, keysOf_sortByKey_nodup h⟩, rfl⟩

theorem claim_C4_witness :
    List.Pairwise keyLT
      (set_counts (⟨0, []⟩ : postings_data ℚ) [(2, 5), (1, 3)]).counts :=
  ((claim_C4_set_counts ⟨0, []⟩ [(2, 5), (1, 3)]).2.2.1 (by decide)).1

/-- C5: for records with strictly ascending counts, `merge_with` produces
a strictly ascending result whose keys are the union of the two key sets
and whose per-key weight is the sum of the two sides' weights (so shared
keys sum and unshared keys keep their weight); the operation is
commutative and associative up to equality of the resulting pair multiset
(here: list permutation, and in fact the sorted results are equal lists);
and the spec's example merge produces exactly
{p=7, [(1,1),(2,4),(3,7)]}. -/
theorem claim_C5_merge_with (s o t : postings_data ℚ)
    (hs : List.Pairwise keyLT s.counts)
    (ho : List.Pairwise keyLT o.counts)
    (ht : List.Pairwise keyLT t.counts) :
    List.Pairwise keyLT (merge_with s o).counts
    ∧ (∀ k, k ∈ keysOf (merge_with s o).counts
        ↔ k ∈ keysOf s.counts ∨ k ∈ keysOf o.counts)
    ∧ (∀ k, wsum (merge_with s o).counts k
        = wsum s.counts k + wsum o.counts k)
    ∧ (merge_with s o).counts.Perm (merge_with o s).counts
    ∧ (merge_with (merge_with s o) t).counts.Perm
        (merge_with s (merge_with o t)).counts
    ∧ merge_with ⟨7, [(1, 1), (3, 2)]⟩ ⟨7, [(2, 4), (3, 5)]⟩
        = ⟨7, [(1, 1), (2, 4), (3, 7)]⟩ :=
  ⟨merge_with_sorted hs ho, mem_keysOf_merge_with hs ho,
    wsum_merge_with hs ho,
    by rw [merge_with_comm_counts hs ho],
    by rw [merge_with_assoc_counts hs ho ht],
    by norm_num [merge_with, mergeStep, sortByKey, lbIdx, List.insertionSort,
      List.orderedInsert, keyLE]⟩

theorem claim_C5_witness :
    (merge_with ⟨7, [(1, 1), (3, 2)]⟩ ⟨7, [(2, 4), (3, 5)]⟩).counts.Perm
      (merge_with ⟨7, [(2, 4), (3, 5)]⟩ ⟨7, [(1, 1), (3, 2)]⟩).counts :=
  (claim_C5_merge_with ⟨7, [(1, 1), (3, 2)]⟩ ⟨7, [(2, 4), (3, 5)]⟩ ⟨0, []⟩
    (by decide) (by decide) (by decide)).2.2.2.1

/-- C6: over `num_docs` primary keys, the compress pass (its gap loop
embedded from the source, the surrounding `postings_file_writer` modelled
from the spec) yields a dense offset table: every primary key below
`num_docs` resolves to a record bearing that key; keys absent from the
input chunk - including key 0 and interior gaps - resolve to the empty
placeholder record, and keys present in the input resolve to their input
record. -/
theorem claim_C6_compress_dense (input : List (postings_data ℚ)) (N : ℕ)
    (hchain : List.Chain' (· < ·) (input.map postings_data.p_id))
    (hlt : ∀ r ∈ input, r.p_id < N) :
    ∀ pk, pk < N →
      ∃ r, finalTable (compressWrites 0 input) N pk = some r
        ∧ r.p_id = pk
        ∧ (pk ∉ input.map postings_data.p_id → r = emptyRecord pk)
        ∧ ∀ q ∈ input, q.p_id = pk → r = q := by
  intro pk hpk
  refine ⟨(writerLookup (compressWrites 0 input) pk).getD (emptyRecord pk),
    ?_, ?_, ?_, ?_⟩
  · unfold finalTable
    rw [if_pos hpk]
  · unfold writerLookup
    cases hf : List.find? (fun r => r.p_id = pk) (compressWrites 0 input) with
    | none => rfl
    | some r =>
      show r.p_id = pk
      have h1 := List.find?_some hf
      exact of_decide_eq_true h1
  · intro hnm
    unfold writerLookup
    cases hf : List.find? (fun r => r.p_id = pk) (compressWrites 0 input) with
    | none => rfl
    | some r =>
      have hr := List.mem_of_find?_eq_some hf
      have h1 := List.find?_some hf
      have hpid : r.p_id = pk := of_decide_eq_true h1
      rcases compressWrites_mem input 0 r hr with h | h
      · exact absurd (hpid ▸ List.mem_map_of_mem postings_data.p_id h) hnm
      · show r = emptyRecord pk
        cases r with
        | mk rp rc =>
          unfold emptyRecord
          simp only at hpid h
          rw [hpid, h]
  · intro q hq hqpk
    have hfind := compressWrites_find? input 0 hchain
      (fun r _ => Nat.zero_le _) q hq
    unfold writerLookup
    rw [← hqpk, hfind]
    rfl

theorem claim_C6_witness :
    ∃ r, finalTable (compressWrites 0 [⟨1, [(2, 3)]⟩, ⟨3, [(0, 1)]⟩]) 5 0
        = some r
      ∧ r.p_id = 0
      ∧ (0 ∉ [(⟨1, [(2, 3)]⟩ : postings_data ℚ), ⟨3, [(0, 1)]⟩].map
          postings_data.p_id → r = emptyRecord 0)
      ∧ ∀ q ∈ [(⟨1, [(2, 3)]⟩ : postings_data ℚ), ⟨3, [(0, 1)]⟩],
          q.p_id = 0 → r = q :=
  claim_C6_compress_dense [⟨1, [(2, 3)]⟩, ⟨3, [(0, 1)]⟩] 5
    (by simp [List.chain'_pair]) (by decide) 0 (by decide)

/-- C7: `find_stream pk` is `Some` exactly when `pk` is below the offset
table length, and its result is independent of the contents of the
postings data file (construction is lazy and reads no byte of it); and
`find pk` for `pk >= num_keys()` returns the empty record with primary key
`pk`, raising no error. -/
theorem claim_C7_find_stream_find (locs bytes bytes' : List ℕ) (pk : ℕ) :
    ((find_stream ⟨locs, bytes⟩ pk).isSome ↔ pk < locs.length)
    ∧ find_stream ⟨locs, bytes⟩ pk = find_stream ⟨locs, bytes'⟩ pk
    ∧ (num_keys ⟨locs, bytes⟩ ≤ pk → find ⟨locs, bytes⟩ pk = some ⟨pk, []⟩) := by
  refine ⟨?_, rfl, fun h => ?_⟩
  · unfold find_stream
    by_cases h : pk < locs.length <;> simp [h]
  · unfold find
    rw [if_neg (by exact Nat.not_lt.mpr h)]

theorem claim_C7_witness :
    find ⟨[0, 9], [1, 2, 3]⟩ 2 = some ⟨2, []⟩ :=
  (claim_C7_find_stream_find [0, 9] [1, 2, 3] [] 2).2.2 (by decide)

/-- C8: on a record whose counts are strictly ascending by secondary key,
`count k` returns 0 when `k` is absent and the stored weight when a pair
`(k, w)` is present. -/
theorem claim_C8_count (r : postings_data ℚ) (k : ℕ)
    (hsort : List.Pairwise keyLT r.counts) :
    (k ∉ keysOf r.counts → count r k = 0)
    ∧ ∀ w, (k, w) ∈ r.counts → count r k = w :=
  ⟨fun h => countList_of_not_mem h, fun _ hw => countList_of_mem hsort hw⟩

theorem claim_C8_witness :
    count (⟨1, [(1, 2), (4, 5)]⟩ : postings_data ℚ) 4 = 5 :=
  (claim_C8_count ⟨1, [(1, 2), (4, 5)]⟩ 4 (by decide)).2 5 (by decide)

/-- C10: the call `self.merge_with(other)` leaves `other` entirely
untouched (same primary key, same counts - it is taken by `const`
reference and only read) and never changes the receiver's primary key. -/
theorem claim_C10_merge_frame (s o : postings_data ℚ) :
    (merge_with_call s o).2 = o
    ∧ (merge_with_call s o).1.p_id = s.p_id
    ∧ (merge_with_call s o).2.p_id = o.p_id
    ∧ (merge_with_call s o).2.counts = o.counts :=
  ⟨rfl, rfl, rfl, rfl⟩

end MetaIndex
